import Mathlib

/-!
Verification of the distributed spectral data engine (dedalus2): a shallow
embedding of the layout/distributor state machine, the block data
distribution, the spectral coefficient resizing, and the field/basis
interfaces, together with theorems settling the specification claims.
-/

set_option autoImplicit false

namespace Dedalus

/-- Numeric dtypes that appear in the code (numpy float64 / complex128). -/
inductive Dtype where
  | float64
  | complex128
deriving DecidableEq, Repr, Inhabited

/-- The per-axis basis data relevant to layout construction:
`grid_dtype` and `coeff_dtype` as set by `Basis.set_dtype`. -/
structure BasisInfo where
  grid_dtype : Dtype
  coeff_dtype : Dtype
deriving DecidableEq, Repr, Inhabited

/-- One layout of the distributor chain (`Layout` in distributor.py):
per-axis locality flags `loc` (`local` in the source), per-axis grid-space
flags `gs` (`grid_space`), the buffer dtype `dt`, and the chain index `idx`
assigned by `_build_layouts`. -/
structure LayoutState where
  idx : Nat
  loc : List Bool
  gs : List Bool
  dt : Dtype
deriving DecidableEq, Repr, Inhabited

/-- A path between adjacent layouts: `Transform(axis)` or `Transpose(axis)`,
recording only the data needed for the structural claims. -/
inductive PathKind where
  | transform (axis : Nat)
  | transpose (axis : Nat)
deriving DecidableEq, Repr, Inhabited

/-- Largest index `d` with `l[d] = false`, mirroring the
`for d, basis in rev_enumerate(domain.bases): if not grid_space[d]: ... break`
loop of `Distributor._build_layouts` (backwards iteration, stop at the first
axis still in coefficient space). -/
def findLastFalse : List Bool → Option Nat
  | [] => none
  | b :: rest =>
    match findLastFalse rest with
    | some d => some (d + 1)
    | none => if b then none else some 0

namespace Distributor

/-- One iteration of the layout-construction loop
(distributor.py lines 115-139): find the last axis still in coefficient
space; if it is local, emit a Transform there (flipping `grid_space[d]` and
adopting the basis grid dtype), otherwise emit a Transpose (swapping the
`local` flags of axes `d` and `d+1`).  Returns `none` if every axis is
already in grid space (never reached along the real chain). -/
def step (bases : List BasisInfo) (s : LayoutState) : Option (PathKind × LayoutState) :=
  match findLastFalse s.gs with
  | none => none
  | some d =>
    if s.loc.getD d false then
      some (PathKind.transform d,
        { idx := s.idx + 1, loc := s.loc, gs := s.gs.set d true,
          dt := (bases.getD d default).grid_dtype })
    else
      some (PathKind.transpose d,
        { idx := s.idx + 1, loc := (s.loc.set d true).set (d + 1) false,
          gs := s.gs, dt := s.dt })

/-- Iterate `step` for `n` further layouts, collecting the layout list and the
path list (the `for i in range(1, R+D+1)` loop). -/
def buildAux (bases : List BasisInfo) : Nat → LayoutState → List LayoutState × List PathKind
  | 0, s => ([s], [])
  | n + 1, s =>
    match step bases s with
    | none => ([s], [])
    | some (p, s1) =>
      let r := buildAux bases n s1
      (s :: r.1, p :: r.2)

/-- The `Distributor._build_layouts` construction: seed with layout 0
(first `R` axes distributed, everything in coefficient space, dtype of the
last basis' coefficients) and take `R + D` steps. -/
def _build_layouts (bases : List BasisInfo) (R : Nat) : List LayoutState × List PathKind :=
  let D := bases.length
  let layout0 : LayoutState :=
    { idx := 0,
      loc := List.replicate R false ++ List.replicate (D - R) true,
      gs := List.replicate D false,
      dt := (bases.getLastD default).coeff_dtype }
  buildAux bases (R + D) layout0

end Distributor

/-! Closed-form description of the layout chain, used to prove the structural
claims about `_build_layouts`.  After `i` steps the chain has performed
`pCount i` transposes and `tCount i = i - pCount i` transforms; axis `d` is
local iff `d = R - pCount i` or `R < d`, and in grid space iff
`D - tCount i ≤ d`. -/

namespace Chain

/-- Number of transposes among the first `i` steps of the chain. -/
def pCount (D R i : Nat) : Nat :=
  if i ≤ D - R then 0 else (i - (D - R) + 1) / 2

/-- Number of transforms among the first `i` steps of the chain. -/
def tCount (D R i : Nat) : Nat := i - pCount D R i

/-- Closed form of the `local` flags after `i` steps. -/
def locClosed (D R i : Nat) : List Bool :=
  (List.range D).map (fun d => decide (d = R - pCount D R i ∨ R < d))

/-- Closed form of the `grid_space` flags after `i` steps. -/
def gsClosed (D R i : Nat) : List Bool :=
  (List.range D).map (fun d => decide (D - tCount D R i ≤ d))

/-- Closed form of the layout dtype after `i` steps. -/
def dtClosed (bases : List BasisInfo) (R i : Nat) : Dtype :=
  if i = 0 then (bases.getLastD default).coeff_dtype
  else (bases.getD (bases.length - tCount bases.length R i) default).grid_dtype

/-- Closed form of the `i`-th layout of the chain. -/
def closed (bases : List BasisInfo) (R i : Nat) : LayoutState :=
  { idx := i,
    loc := locClosed bases.length R i,
    gs := gsClosed bases.length R i,
    dt := dtClosed bases R i }

/-- Closed form of the `i`-th path of the chain. -/
def pathClosed (D R i : Nat) : PathKind :=
  if pCount D R (i + 1) = pCount D R i then
    PathKind.transform (D - tCount D R (i + 1))
  else
    PathKind.transpose (R - pCount D R (i + 1))

end Chain

/-! Helper lemmas about `findLastFalse` and lists built as `(range D).map f`. -/

theorem getD_rangeMap {α : Type} (f : Nat → α) (D j : Nat) (dflt : α) :
    ((List.range D).map f).getD j dflt = if j < D then f j else dflt := by
  by_cases h : j < D
  · rw [List.getD_eq_getElem _ _ (by simpa using h), List.getElem_map, List.getElem_range]
    simp [h]
  · rw [if_neg h, List.getD_eq_getElem?_getD]
    have : ((List.range D).map f).length ≤ j := by simpa using Nat.le_of_not_lt h
    simp [List.getElem?_eq_none this]

theorem set_rangeMap {α : Type} (f : Nat → α) (D j : Nat) (v : α) (_hj : j < D) :
    ((List.range D).map f).set j v =
      (List.range D).map (fun d => if d = j then v else f d) := by
  apply List.ext_getElem (by simp)
  intro n h1 h2
  have hn : n < D := by simpa using h2
  rw [List.getElem_set, List.getElem_map, List.getElem_map, List.getElem_range]
  by_cases h : n = j
  · simp [h]
  · rw [if_neg (fun hh => h hh.symm), if_neg h]

theorem findLastFalse_none : ∀ {l : List Bool},
    findLastFalse l = none → ∀ j, l.getD j true = true := by
  intro l
  induction l with
  | nil =>
    intro _ j
    rw [List.getD_eq_getElem?_getD]
    simp
  | cons b rest ih =>
    intro h j
    rw [findLastFalse] at h
    rcases hrest : findLastFalse rest with _ | e
    · rw [hrest] at h
      by_cases hb : b
      · rcases j with _ | k
        · simpa using hb
        · simpa using ih hrest k
      · simp [hb] at h
    · rw [hrest] at h
      simp at h

theorem findLastFalse_sound : ∀ {l : List Bool} {d : Nat},
    findLastFalse l = some d →
    l.getD d true = false ∧ ∀ j, d < j → l.getD j true = true := by
  intro l
  induction l with
  | nil => intro d h; simp [findLastFalse] at h
  | cons b rest ih =>
    intro d h
    rw [findLastFalse] at h
    rcases hrest : findLastFalse rest with _ | e
    · rw [hrest] at h
      by_cases hb : b
      · simp [hb] at h
      · simp [hb] at h
        subst h
        refine ⟨by simpa using hb, ?_⟩
        intro j hj
        rcases j with _ | k
        · omega
        · simpa using findLastFalse_none hrest k
    · rw [hrest] at h
      simp at h
      subst h
      obtain ⟨h1, h2⟩ := ih hrest
      constructor
      · simpa using h1
      · intro j hj
        rcases j with _ | k
        · omega
        · simpa using h2 k (by omega)

theorem findLastFalse_rangeMap (D c : Nat) (h1 : 1 ≤ c) (h2 : c ≤ D) :
    findLastFalse ((List.range D).map (fun d => decide (c ≤ d))) = some (c - 1) := by
  rcases hflf : findLastFalse ((List.range D).map (fun d => decide (c ≤ d))) with _ | d
  · -- impossible: position c-1 holds false
    exfalso
    have hfalse : ((List.range D).map (fun d => decide (c ≤ d))).getD (c - 1) true = false := by
      rw [getD_rangeMap, if_pos (by omega)]
      simp; omega
    rw [findLastFalse_none hflf (c - 1)] at hfalse
    simp at hfalse
  · obtain ⟨ha, hb⟩ := findLastFalse_sound hflf
    rw [getD_rangeMap] at ha
    have hdD : d < D := by
      by_contra hcon
      rw [if_neg hcon] at ha
      simp at ha
    rw [if_pos hdD] at ha
    have hdc : d < c := by simpa using ha
    have : d = c - 1 := by
      by_contra hne
      have hlt : d < c - 1 := by omega
      have := hb (c - 1) hlt
      rw [getD_rangeMap, if_pos (by omega)] at this
      simp at this
      omega
    rw [this]

/-- One step of `_build_layouts` maps the closed-form layout `i` to the
closed-form path `i` and layout `i+1`. -/
theorem step_closed (bases : List BasisInfo) (R i : Nat)
    (hR : R < bases.length) (hi : i < bases.length + R) :
    Distributor.step bases (Chain.closed bases R i) =
      some (Chain.pathClosed bases.length R i, Chain.closed bases R (i + 1)) := by
  have hti_lt : Chain.tCount bases.length R i < bases.length := by
    simp only [Chain.tCount, Chain.pCount]
    split_ifs <;> omega
  have hflf : findLastFalse (Chain.gsClosed bases.length R i) =
      some (bases.length - Chain.tCount bases.length R i - 1) :=
    findLastFalse_rangeMap bases.length (bases.length - Chain.tCount bases.length R i)
      (by omega) (by omega)
  have hdD : bases.length - Chain.tCount bases.length R i - 1 < bases.length := by omega
  have hlocval : (Chain.locClosed bases.length R i).getD
      (bases.length - Chain.tCount bases.length R i - 1) false =
      decide (bases.length - Chain.tCount bases.length R i - 1 =
          R - Chain.pCount bases.length R i ∨
        R < bases.length - Chain.tCount bases.length R i - 1) := by
    rw [Chain.locClosed, getD_rangeMap, if_pos hdD]
  have hcases : Chain.pCount bases.length R (i + 1) = Chain.pCount bases.length R i ∨
      Chain.pCount bases.length R (i + 1) = Chain.pCount bases.length R i + 1 := by
    simp only [Chain.pCount]
    split_ifs <;> omega
  simp only [Distributor.step, Chain.closed, hflf]
  rcases hcases with htr | htp
  · -- transform step
    have e1 : Chain.tCount bases.length R (i + 1) = Chain.tCount bases.length R i + 1 := by
      simp only [Chain.tCount, Chain.pCount] at htr ⊢
      split_ifs at htr ⊢ <;> omega
    have hax : bases.length - Chain.tCount bases.length R i - 1 =
          R - Chain.pCount bases.length R i ∨
        R < bases.length - Chain.tCount bases.length R i - 1 := by
      simp only [Chain.tCount, Chain.pCount] at htr ⊢
      split_ifs at htr ⊢ <;> omega
    rw [hlocval, if_pos (decide_eq_true hax)]
    simp only [Chain.pathClosed, if_pos htr, Option.some.injEq, Prod.mk.injEq,
      PathKind.transform.injEq, LayoutState.mk.injEq, eq_self_iff_true, true_and, and_true]
    refine ⟨by omega, ?_, ?_, ?_⟩
    · simp only [Chain.locClosed, htr]
    · simp only [Chain.gsClosed]
      rw [set_rangeMap _ _ _ _ hdD]
      refine List.map_congr_left ?_
      intro d hd
      by_cases h : d = bases.length - Chain.tCount bases.length R i - 1
      · rw [if_pos h]
        exact (decide_eq_true (by omega)).symm
      · rw [if_neg h, decide_eq_decide]
        omega
    · simp only [Chain.dtClosed, if_neg (Nat.succ_ne_zero i)]
      have : bases.length - Chain.tCount bases.length R (i + 1) =
          bases.length - Chain.tCount bases.length R i - 1 := by omega
      rw [this]
  · -- transpose step
    have f1 : Chain.tCount bases.length R (i + 1) = Chain.tCount bases.length R i := by
      simp only [Chain.tCount, Chain.pCount] at htp ⊢
      split_ifs at htp ⊢ <;> omega
    have f2 : R - Chain.pCount bases.length R (i + 1) =
        bases.length - Chain.tCount bases.length R i - 1 := by
      simp only [Chain.tCount, Chain.pCount] at htp ⊢
      split_ifs at htp ⊢ <;> omega
    have f3 : R - Chain.pCount bases.length R i =
        bases.length - Chain.tCount bases.length R i := by
      simp only [Chain.tCount, Chain.pCount] at htp ⊢
      split_ifs at htp ⊢ <;> omega
    have f5 : i ≠ 0 := by
      simp only [Chain.pCount] at htp
      split_ifs at htp <;> omega
    have f4 : ¬(bases.length - Chain.tCount bases.length R i - 1 =
          R - Chain.pCount bases.length R i ∨
        R < bases.length - Chain.tCount bases.length R i - 1) := by omega
    rw [hlocval, if_neg (by simpa using f4)]
    simp only [Chain.pathClosed, if_neg (by omega : ¬(Chain.pCount bases.length R (i + 1) =
      Chain.pCount bases.length R i)), Option.some.injEq, Prod.mk.injEq,
      PathKind.transpose.injEq, LayoutState.mk.injEq, eq_self_iff_true, true_and, and_true]
    have hd1D : bases.length - Chain.tCount bases.length R i - 1 + 1 < bases.length := by
      omega
    refine ⟨by omega, ?_, ?_, ?_⟩
    · simp only [Chain.locClosed]
      rw [set_rangeMap _ _ _ _ hdD, set_rangeMap _ _ _ _ hd1D]
      refine List.map_congr_left ?_
      intro d hd
      have hdlt : d < bases.length := by simpa using hd
      by_cases h1 : d = bases.length - Chain.tCount bases.length R i - 1 + 1
      · rw [if_pos h1]
        exact (decide_eq_false (by omega)).symm
      · rw [if_neg h1]
        by_cases h2 : d = bases.length - Chain.tCount bases.length R i - 1
        · rw [if_pos h2]
          exact (decide_eq_true (by omega)).symm
        · rw [if_neg h2, decide_eq_decide]
          omega
    · simp only [Chain.gsClosed, f1]
    · simp only [Chain.dtClosed, if_neg (Nat.succ_ne_zero i), if_neg f5, f1]

/-- Unfolding lemma: a map over `range (n+1)` is its head consed on the
shifted map. -/
theorem rangeMap_succ {α : Type} (g : Nat → α) (n : Nat) :
    (List.range (n + 1)).map g = g 0 :: (List.range n).map (fun j => g (j + 1)) := by
  rw [List.range_succ_eq_map, List.map_cons, List.map_map]
  refine congrArg (List.cons (g 0)) ?_
  exact List.map_congr_left (fun a _ => rfl)

/-- Iterating the construction loop from the closed-form layout `i` yields the
closed-form layouts `i..i+n` and paths `i..i+n-1`. -/
theorem buildAux_closed (bases : List BasisInfo) (R : Nat) (hR : R < bases.length) :
    ∀ n i, i + n ≤ bases.length + R →
    Distributor.buildAux bases n (Chain.closed bases R i) =
      ((List.range (n + 1)).map (fun j => Chain.closed bases R (i + j)),
       (List.range n).map (fun j => Chain.pathClosed bases.length R (i + j))) := by
  intro n
  induction n with
  | zero =>
    intro i _
    simp [Distributor.buildAux, List.range_succ_eq_map]
  | succ n ih =>
    intro i hin
    rw [Distributor.buildAux]
    rw [step_closed bases R i hR (by omega)]
    have hrec := ih (i + 1) (by omega)
    simp only [hrec, Prod.mk.injEq]
    refine ⟨?_, ?_⟩
    · conv_rhs => rw [rangeMap_succ]
      congr 1
      refine List.map_congr_left ?_
      intro j _
      congr 1
      omega
    · conv_rhs => rw [rangeMap_succ]
      congr 1
      refine List.map_congr_left ?_
      intro j _
      congr 1
      omega

/-- The seed layout of `_build_layouts` is the closed-form layout 0. -/
theorem layout0_closed (bases : List BasisInfo) (R : Nat) (hR : R < bases.length) :
    ({ idx := 0,
       loc := List.replicate R false ++ List.replicate (bases.length - R) true,
       gs := List.replicate bases.length false,
       dt := (bases.getLastD default).coeff_dtype } : LayoutState) =
      Chain.closed bases R 0 := by
  have hp0 : Chain.pCount bases.length R 0 = 0 := by
    simp only [Chain.pCount]
    rw [if_pos (by omega)]
  have ht0 : Chain.tCount bases.length R 0 = 0 := by
    simp [Chain.tCount, hp0]
  simp only [Chain.closed, LayoutState.mk.injEq, eq_self_iff_true, true_and, and_true]
  refine ⟨?_, ?_, ?_⟩
  · simp only [Chain.locClosed, hp0]
    apply List.ext_getElem (by simp; omega)
    intro n h1 h2
    have hn : n < bases.length := by simpa using h2
    rw [List.getElem_map, List.getElem_range, List.getElem_append]
    by_cases h : n < R
    · rw [dif_pos (by simpa using h), List.getElem_replicate]
      exact (decide_eq_false (by omega)).symm
    · rw [dif_neg (by simpa using h), List.getElem_replicate]
      exact (decide_eq_true (by omega)).symm
  · simp only [Chain.gsClosed, ht0]
    apply List.ext_getElem (by simp)
    intro n h1 h2
    have hn : n < bases.length := by simpa using h2
    rw [List.getElem_map, List.getElem_range, List.getElem_replicate]
    exact (decide_eq_false (by omega)).symm
  · simp [Chain.dtClosed]

/-- Full characterization of `_build_layouts`: the layout list is the list of
closed-form layouts `0..R+D` and the path list the closed-form paths. -/
theorem build_layouts_eq (bases : List BasisInfo) (R : Nat) (hR : R < bases.length) :
    Distributor._build_layouts bases R =
      ((List.range (R + bases.length + 1)).map (fun j => Chain.closed bases R j),
       (List.range (R + bases.length)).map (fun j => Chain.pathClosed bases.length R j)) := by
  have h2 := buildAux_closed bases R hR (R + bases.length) 0 (by omega)
  simp only [Nat.zero_add] at h2
  rw [Distributor._build_layouts]
  rw [layout0_closed bases R hR, h2]

/-- Structural specification of the layout chain stated by claim C1:
counts of layouts and paths, indices, and the first and last layouts. -/
def BuildLayoutsSpec (bases : List BasisInfo) (R : Nat) : Prop :=
  (Distributor._build_layouts bases R).1.length = R + bases.length + 1 ∧
  (Distributor._build_layouts bases R).2.length = R + bases.length ∧
  (∀ i, i < R + bases.length + 1 →
    ((Distributor._build_layouts bases R).1.getD i default).idx = i) ∧
  ((Distributor._build_layouts bases R).1.getD 0 default).loc =
    List.replicate R false ++ List.replicate (bases.length - R) true ∧
  ((Distributor._build_layouts bases R).1.getD 0 default).gs =
    List.replicate bases.length false ∧
  ((Distributor._build_layouts bases R).1.getD (R + bases.length) default).gs =
    List.replicate bases.length true ∧
  ((Distributor._build_layouts bases R).1.getD (R + bases.length) default).loc =
    true :: (List.replicate R false ++ List.replicate (bases.length - R - 1) true)

/-- C1: for every domain of dimension D and mesh with R effective dimensions
(R < D), `_build_layouts` produces exactly R+D+1 layouts with indices 0..R+D
and exactly R+D paths; layout 0 has local = [False]*R ++ [True]*(D-R) and
grid_space all False, and the final layout R+D is fully grid-space with axis 0
local, axes 1..R distributed, and the tail local. -/
theorem claim_C1 (bases : List BasisInfo) (R : Nat) (hR : R < bases.length) :
    BuildLayoutsSpec bases R := by
  have hpp : Chain.pCount bases.length R (R + bases.length) = R := by
    simp only [Chain.pCount]
    split_ifs <;> omega
  have hpt : Chain.tCount bases.length R (R + bases.length) = bases.length := by
    simp only [Chain.tCount, hpp]
    omega
  rw [BuildLayoutsSpec, build_layouts_eq bases R hR]
  refine ⟨by simp, by simp, ?_, ?_, ?_, ?_, ?_⟩
  · intro i hilt
    rw [getD_rangeMap, if_pos (by omega)]
    rfl
  · rw [getD_rangeMap, if_pos (by omega), ← layout0_closed bases R hR]
  · rw [getD_rangeMap, if_pos (by omega), ← layout0_closed bases R hR]
  · rw [getD_rangeMap, if_pos (by omega)]
    simp only [Chain.closed, Chain.gsClosed, hpt]
    apply List.ext_getElem (by simp)
    intro n h1 h2
    have hn : n < bases.length := by simpa using h2
    rw [List.getElem_map, List.getElem_range, List.getElem_replicate]
    exact decide_eq_true (by omega)
  · rw [getD_rangeMap, if_pos (by omega)]
    simp only [Chain.closed, Chain.locClosed, hpp]
    apply List.ext_getElem (by simp; omega)
    intro n h1 h2
    have hn : n < bases.length := by simpa using h1
    rw [List.getElem_map, List.getElem_range]
    rcases n with _ | m
    · rw [List.getElem_cons_zero]
      exact decide_eq_true (by omega)
    · rw [List.getElem_cons_succ, List.getElem_append]
      by_cases h : m < R
      · rw [dif_pos (by simpa using h), List.getElem_replicate]
        exact decide_eq_false (by omega)
      · rw [dif_neg (by simpa using h), List.getElem_replicate]
        exact decide_eq_true (by omega)

/-- Atomicity of one edge of the layout chain, as stated by claim C2: a
Transform flips `grid_space[d]` from False to True on a single axis whose
`local[d]` is already True, leaving `local` untouched (the dtype may change);
a Transpose flips `local[d]` False to True and `local[d+1]` True to False with
`grid_space` and the dtype identical. -/
def AtomicStep (a b : LayoutState) : PathKind → Prop
  | PathKind.transform d =>
      a.loc.getD d false = true ∧ a.gs.getD d true = false ∧
      b.loc = a.loc ∧ b.gs = a.gs.set d true
  | PathKind.transpose d =>
      a.loc.getD d true = false ∧ a.loc.getD (d + 1) false = true ∧
      b.loc = (a.loc.set d true).set (d + 1) false ∧
      b.gs = a.gs ∧ b.dt = a.dt

/-- Auxiliary conversion: `getD` does not depend on the default inside
bounds. -/
theorem getD_default_eq {α : Type} (l : List α) (d : Nat) (h : d < l.length) (x y : α) :
    l.getD d x = l.getD d y := by
  rw [List.getD_eq_getElem _ _ h, List.getD_eq_getElem _ _ h]

/-- Every successful `step` is an atomic change, provided the transpose
invariant (axis `d+1` exists and is local) holds at the source layout. -/
theorem atomic_of_step (bases : List BasisInfo) (s s2 : LayoutState) (p : PathKind)
    (h : Distributor.step bases s = some (p, s2))
    (hextra : ∀ d, p = PathKind.transpose d →
      d + 1 < s.loc.length ∧ s.loc.getD (d + 1) false = true) :
    AtomicStep s s2 p := by
  rw [Distributor.step] at h
  rcases hflf : findLastFalse s.gs with _ | d
  · rw [hflf] at h
    simp at h
  · rw [hflf] at h
    dsimp only at h
    have hgs := (findLastFalse_sound hflf).1
    by_cases hl : s.loc.getD d false = true
    · rw [if_pos hl] at h
      simp only [Option.some.injEq, Prod.mk.injEq] at h
      obtain ⟨hp, hs⟩ := h
      subst hp
      subst hs
      exact ⟨hl, hgs, rfl, rfl⟩
    · rw [if_neg hl] at h
      simp only [Option.some.injEq, Prod.mk.injEq] at h
      obtain ⟨hp, hs⟩ := h
      subst hp
      subst hs
      obtain ⟨hb, hloc1⟩ := hextra d rfl
      have hdlt : d < s.loc.length := by omega
      refine ⟨?_, hloc1, rfl, rfl, rfl⟩
      rw [getD_default_eq s.loc d hdlt true false]
      exact Bool.not_eq_true _ ▸ (Bool.eq_false_iff.mpr (fun hc => hl (by rw [hc])))

/-- Per-chain statement of claim C2: every consecutive pair of layouts is
related by the recorded path as one atomic change. -/
def AtomicChainSpec (bases : List BasisInfo) (R : Nat) : Prop :=
  ∀ i, i < R + bases.length →
    AtomicStep ((Distributor._build_layouts bases R).1.getD i default)
      ((Distributor._build_layouts bases R).1.getD (i + 1) default)
      ((Distributor._build_layouts bases R).2.getD i default)

/-- C2: for every domain and mesh, every consecutive pair of layouts in the
chain differs by exactly one atomic change: a Transform flipping
`grid_space[d]` from False to True on a single axis with `local[d]` already
True (dtype may change), or a Transpose flipping `local[d]` False to True and
`local[d+1]` True to False with all other flags and the dtype identical. -/
theorem claim_C2 (bases : List BasisInfo) (R : Nat) (hR : R < bases.length) :
    AtomicChainSpec bases R := by
  intro i hi
  rw [build_layouts_eq bases R hR]
  dsimp only
  rw [getD_rangeMap, if_pos (by omega), getD_rangeMap, if_pos (by omega),
    getD_rangeMap, if_pos (by omega)]
  refine atomic_of_step bases _ _ _ (step_closed bases R i hR (by omega)) ?_
  intro d hd
  by_cases hc : Chain.pCount bases.length R (i + 1) = Chain.pCount bases.length R i
  · unfold Chain.pathClosed at hd
    rw [if_pos hc] at hd
    simp at hd
  · unfold Chain.pathClosed at hd
    rw [if_neg hc] at hd
    injection hd with h3
    have hplt : Chain.pCount bases.length R (i + 1) ≤ R ∧
        Chain.pCount bases.length R (i + 1) = Chain.pCount bases.length R i + 1 := by
      simp only [Chain.pCount] at hc ⊢
      split_ifs at hc ⊢ <;> omega
    constructor
    · simp only [Chain.closed, Chain.locClosed]
      rw [List.length_map, List.length_range]
      omega
    · simp only [Chain.closed, Chain.locClosed]
      rw [getD_rangeMap, if_pos (by omega)]
      exact decide_eq_true (Or.inl (by omega))

/-- Witness for C1 at a concrete domain: D = 3 (Fourier-like, Fourier-like,
Chebyshev-like bases) and a mesh with R = 1 effective dimension. -/
theorem claim_C1_witness :
    1 < ([⟨Dtype.float64, Dtype.complex128⟩, ⟨Dtype.complex128, Dtype.complex128⟩,
        ⟨Dtype.complex128, Dtype.complex128⟩] : List BasisInfo).length ∧
    BuildLayoutsSpec [⟨Dtype.float64, Dtype.complex128⟩, ⟨Dtype.complex128, Dtype.complex128⟩,
        ⟨Dtype.complex128, Dtype.complex128⟩] 1 :=
  ⟨by decide, claim_C1 _ 1 (by decide)⟩

/-- Witness for C2 at a concrete domain: D = 4 and R = 2. -/
theorem claim_C2_witness :
    2 < ([⟨Dtype.complex128, Dtype.complex128⟩, ⟨Dtype.complex128, Dtype.complex128⟩,
        ⟨Dtype.complex128, Dtype.complex128⟩, ⟨Dtype.float64, Dtype.float64⟩] : List BasisInfo).length ∧
    AtomicChainSpec [⟨Dtype.complex128, Dtype.complex128⟩, ⟨Dtype.complex128, Dtype.complex128⟩,
        ⟨Dtype.complex128, Dtype.complex128⟩, ⟨Dtype.float64, Dtype.float64⟩] 2 :=
  ⟨by decide, claim_C2 _ 2 (by decide)⟩

/-! Embedding of the per-layout shape queries (`Layout.global_shape`,
`Layout.blocks`, `Layout.local_shape`, and the extended mesh and coordinates
from `Layout.__init__`), working per axis on lists of naturals. -/

namespace Layout

/-- Per-axis global shape (`Layout.global_shape`): the coefficient size on a
coefficient-space axis, the scaled grid size on a grid-space axis. -/
def global_shape : List Nat → List Nat → List Bool → List Nat
  | c :: cs, g :: gs2, b :: bs => (if b then g else c) :: global_shape cs gs2 bs
  | _, _, _ => []

/-- One axis of `Layout.blocks`: `ceil(global / ext_mesh)` as the FFTW
standard block size. -/
def blocks1 (g m : Nat) : Nat := (g + m - 1) / m

/-- One axis of the cut coordinate of `Layout.local_shape`:
`floor(global / blocks)`, the first empty or partial block. -/
def cut1 (g m : Nat) : Nat := g / blocks1 g m

/-- One axis of `Layout.local_shape`: the block size below the cut, the
remainder at the cut, and zero past the cut. -/
def local_shape1 (g m c : Nat) : Nat :=
  if c < cut1 g m then blocks1 g m
  else if c = cut1 g m then g - cut1 g m * blocks1 g m
  else 0

/-- All axes of `Layout.blocks`. -/
def blocks : List Nat → List Nat → List Nat
  | g :: G, m :: M => blocks1 g m :: blocks G M
  | _, _ => []

/-- All axes of `Layout.local_shape`. -/
def local_shape : List Nat → List Nat → List Nat → List Nat
  | g :: G, m :: M, c :: C => local_shape1 g m c :: local_shape G M C
  | _, _, _ => []

/-- Extended mesh (`Layout.__init__`): ones on local axes, the mesh entries in
order on distributed axes.  (numpy errors when the counts mismatch; the
fallback 1 is never reached under the length hypotheses used below.) -/
def ext_mesh : List Bool → List Nat → List Nat
  | [], _ => []
  | true :: l, ms => 1 :: ext_mesh l ms
  | false :: l, m :: ms => m :: ext_mesh l ms
  | false :: l, [] => 1 :: ext_mesh l []

/-- Extended coordinates (`Layout.__init__`): zeros on local axes, the
cartesian coordinates in order on distributed axes. -/
def ext_coords : List Bool → List Nat → List Nat
  | [], _ => []
  | true :: l, cs => 0 :: ext_coords l cs
  | false :: l, c :: cs => c :: ext_coords l cs
  | false :: l, [] => 0 :: ext_coords l []

/-- All extended-coordinate tuples of an extended mesh: the cartesian product
of `range m` over the axes. -/
def allCoords : List Nat → List (List Nat)
  | [] => [[]]
  | m :: M => (List.range m).flatMap (fun c => (allCoords M).map (fun C => c :: C))

end Layout

/-- Ceiling-division characterization of the FFTW block size: it is the least
number of rows per block covering the global extent. -/
theorem ceil_div_char (g m : Nat) (hg : 1 ≤ g) (hm : 1 ≤ m) :
    g ≤ m * Layout.blocks1 g m ∧ m * (Layout.blocks1 g m - 1) < g := by
  simp only [Layout.blocks1]
  have h1 := Nat.div_add_mod (g + m - 1) m
  have h2 : (g + m - 1) % m < m := Nat.mod_lt _ (by omega)
  obtain ⟨B, hB⟩ : ∃ B, (g + m - 1) / m = B := ⟨_, rfl⟩
  rw [hB]
  rw [hB] at h1
  have hsplit : B = 0 ∧ m * (B - 1) = 0 ∨ m * B = m * (B - 1) + m := by
    rcases B with _ | B2
    · exact Or.inl ⟨rfl, by simp⟩
    · right
      rw [Nat.mul_succ]
      simp
  obtain ⟨X, hX⟩ : ∃ x, m * B = x := ⟨_, rfl⟩
  obtain ⟨Y, hY⟩ : ∃ y, m * (B - 1) = y := ⟨_, rfl⟩
  rw [hX] at h1 hsplit ⊢
  rw [hY] at hsplit ⊢
  omega

/-- Summing the block-distribution of `g` rows over coordinates below `n`
gives `min (n · b) g`: the blocks before the cut are full, the cut block holds
the remainder, and later blocks are empty. -/
theorem sum_blockdist (b q g : Nat) (hq : q * b ≤ g) (hg : g < (q + 1) * b) :
    ∀ n, ((List.range n).map
        (fun c => if c < q then b else if c = q then g - q * b else 0)).sum
      = min (n * b) g := by
  intro n
  induction n with
  | zero => simp
  | succ n ih =>
    rw [List.range_succ, List.map_append, List.sum_append, ih]
    simp only [List.map_cons, List.map_nil, List.sum_cons, List.sum_nil, Nat.add_zero]
    by_cases h1 : n < q
    · rw [if_pos h1]
      have hnb : (n + 1) * b ≤ g := le_trans (Nat.mul_le_mul_right b (by omega)) hq
      rw [Nat.min_eq_left (le_trans (Nat.mul_le_mul_right b (by omega : n ≤ n + 1)) hnb),
        Nat.min_eq_left hnb]
      ring
    · rw [if_neg h1]
      by_cases h2 : n = q
      · rw [if_pos h2, h2]
        rw [Nat.min_eq_left hq, Nat.min_eq_right (Nat.le_of_lt hg)]
        exact Nat.add_sub_cancel' hq
      · rw [if_neg h2]
        have h3 : g < n * b := lt_of_lt_of_le hg (Nat.mul_le_mul_right b (by omega))
        rw [Nat.min_eq_right (Nat.le_of_lt h3),
          Nat.min_eq_right (Nat.le_of_lt (lt_of_lt_of_le h3 (Nat.mul_le_mul_right b (by omega))))]
        exact Nat.add_zero g

/-- Summing one axis of `local_shape` over all coordinates of that axis gives
the global extent: the block distribution neither loses nor duplicates rows. -/
theorem sum_local_shape1 (g m : Nat) (hg : 1 ≤ g) (hm : 1 ≤ m) :
    ((List.range m).map (fun c => Layout.local_shape1 g m c)).sum = g := by
  have hb0 : 0 < Layout.blocks1 g m := by
    simp only [Layout.blocks1]
    exact (Nat.le_div_iff_mul_le (by omega)).mpr (by omega)
  have hq1 : Layout.cut1 g m * Layout.blocks1 g m ≤ g := Nat.div_mul_le_self g _
  have hq2 : g < (Layout.cut1 g m + 1) * Layout.blocks1 g m := by
    calc g = Layout.blocks1 g m * (g / Layout.blocks1 g m) + g % Layout.blocks1 g m :=
          (Nat.div_add_mod g _).symm
      _ < Layout.blocks1 g m * (g / Layout.blocks1 g m) + Layout.blocks1 g m :=
          Nat.add_lt_add_left (Nat.mod_lt g hb0) _
      _ = (Layout.cut1 g m + 1) * Layout.blocks1 g m := by
          rw [Layout.cut1]
          ring
  have hkey := sum_blockdist (Layout.blocks1 g m) (Layout.cut1 g m) g hq1 hq2 m
  have hfun : (List.range m).map (fun c => Layout.local_shape1 g m c) =
      (List.range m).map (fun c => if c < Layout.cut1 g m then Layout.blocks1 g m
        else if c = Layout.cut1 g m then g - Layout.cut1 g m * Layout.blocks1 g m else 0) :=
    List.map_congr_left (fun c _ => rfl)
  rw [hfun, hkey]
  exact Nat.min_eq_right (ceil_div_char g m hg hm).1

/-- Sum of a `flatMap` of natural-number lists. -/
theorem sum_flatMap_nat {α : Type} (l : List α) (f : α → List Nat) :
    (l.flatMap f).sum = (l.map (fun a => (f a).sum)).sum := by
  induction l with
  | nil => rfl
  | cons a l ih =>
    rw [List.flatMap_cons, List.sum_append, ih, List.map_cons, List.sum_cons]

theorem blocks_getD : ∀ (G M : List Nat) (d : Nat), d < G.length → M.length = G.length →
    (Layout.blocks G M).getD d 0 = Layout.blocks1 (G.getD d 0) (M.getD d 1) := by
  intro G
  induction G with
  | nil =>
    intro M d hd _
    simp at hd
  | cons g G ih =>
    intro M d hd hlen
    rcases M with _ | ⟨m, M⟩
    · simp at hlen
    · rcases d with _ | d
      · rfl
      · simp only [Layout.blocks, List.getD_cons_succ]
        exact ih M d (by simpa using hd) (by simpa using hlen)

theorem local_shape_getD : ∀ (G M C : List Nat) (d : Nat),
    d < G.length → M.length = G.length → C.length = G.length →
    (Layout.local_shape G M C).getD d 0 =
      Layout.local_shape1 (G.getD d 0) (M.getD d 1) (C.getD d 0) := by
  intro G
  induction G with
  | nil =>
    intro M C d hd _ _
    simp at hd
  | cons g G ih =>
    intro M C d hd hlenM hlenC
    rcases M with _ | ⟨m, M⟩
    · simp at hlenM
    rcases C with _ | ⟨c, C⟩
    · simp at hlenC
    rcases d with _ | d
    · rfl
    · simp only [Layout.local_shape, List.getD_cons_succ]
      exact ih M C d (by simpa using hd) (by simpa using hlenM) (by simpa using hlenC)

/-- Per-axis specification of claim C4: blocks are the ceiling division of the
global shape by the extended mesh (least cover characterization), and the
local shape follows the blocks / remainder-at-cut / zero-past-cut trichotomy
with cut = floor(global / blocks). -/
def BlocksLocalSpec (G M C : List Nat) : Prop :=
  ∀ d, d < G.length →
    (G.getD d 0 ≤ M.getD d 1 * (Layout.blocks G M).getD d 0 ∧
     M.getD d 1 * ((Layout.blocks G M).getD d 0 - 1) < G.getD d 0) ∧
    (Layout.local_shape G M C).getD d 0 =
      (if C.getD d 0 < G.getD d 0 / (Layout.blocks G M).getD d 0 then
         (Layout.blocks G M).getD d 0
       else if C.getD d 0 = G.getD d 0 / (Layout.blocks G M).getD d 0 then
         G.getD d 0 - G.getD d 0 / (Layout.blocks G M).getD d 0 * (Layout.blocks G M).getD d 0
       else 0)

/-- C4: for every layout, scales and rank, blocks = ceil(global / ext_mesh)
per axis, and the local shape equals blocks below the cut floor(global/blocks),
the remainder at the cut, and zero past it; in particular for global shape
[9,8] with mesh [4] on axis 0, ranks 0..2 get [3,8] and rank 3 gets [0,8]. -/
theorem claim_C4 (G M C : List Nat) (hlenM : M.length = G.length)
    (hlenC : C.length = G.length) (hg : ∀ x ∈ G, 1 ≤ x) (hm : ∀ x ∈ M, 1 ≤ x) :
    BlocksLocalSpec G M C ∧
    Layout.ext_mesh [false, true] [4] = [4, 1] ∧
    (∀ r, r < 3 → Layout.local_shape [9, 8] [4, 1] [r, 0] = [3, 8]) ∧
    Layout.local_shape [9, 8] [4, 1] [3, 0] = [0, 8] := by
  refine ⟨?_, by decide, by decide, by decide⟩
  intro d hd
  have hgd : 1 ≤ G.getD d 0 := by
    refine hg _ ?_
    rw [List.getD_eq_getElem _ _ hd]
    exact List.getElem_mem _
  have hmd : 1 ≤ M.getD d 1 := by
    refine hm _ ?_
    rw [List.getD_eq_getElem _ _ (by omega)]
    exact List.getElem_mem _
  rw [blocks_getD G M d hd hlenM, local_shape_getD G M C d hd hlenM hlenC]
  exact ⟨ceil_div_char _ _ hgd hmd, rfl⟩

/-- Witness for C4 at the layout of scenario S5: global coefficient shape
[9,8], extended mesh [4,1], rank with extended coordinates [3,0]. -/
theorem claim_C4_witness :
    ([4, 1] : List Nat).length = ([9, 8] : List Nat).length ∧
    ([3, 0] : List Nat).length = ([9, 8] : List Nat).length ∧
    (∀ x ∈ ([9, 8] : List Nat), 1 ≤ x) ∧ (∀ x ∈ ([4, 1] : List Nat), 1 ≤ x) ∧
    (BlocksLocalSpec [9, 8] [4, 1] [3, 0] ∧
     Layout.ext_mesh [false, true] [4] = [4, 1] ∧
     (∀ r, r < 3 → Layout.local_shape [9, 8] [4, 1] [r, 0] = [3, 8]) ∧
     Layout.local_shape [9, 8] [4, 1] [3, 0] = [0, 8]) :=
  ⟨by decide, by decide, by decide, by decide,
    claim_C4 [9, 8] [4, 1] [3, 0] (by decide) (by decide) (by decide) (by decide)⟩

/-- C5: for every layout, summing the product of the local shape over all
extended-mesh coordinates recovers the product of the global shape: the block
distribution loses and duplicates no elements. -/
theorem claim_C5 (G M : List Nat) (hlen : M.length = G.length)
    (hg : ∀ x ∈ G, 1 ≤ x) (hm : ∀ x ∈ M, 1 ≤ x) :
    ((Layout.allCoords M).map (fun C => (Layout.local_shape G M C).prod)).sum = G.prod := by
  induction G generalizing M with
  | nil =>
    have hM : M = [] := List.length_eq_zero.mp (by simpa using hlen)
    subst hM
    simp [Layout.allCoords, Layout.local_shape]
  | cons g G ih =>
    rcases M with _ | ⟨m, M⟩
    · simp at hlen
    · simp only [Layout.allCoords]
      rw [List.map_flatMap, sum_flatMap_nat]
      have hinner : ∀ c ∈ List.range m,
          (((Layout.allCoords M).map (fun C => c :: C)).map
            (fun C => (Layout.local_shape (g :: G) (m :: M) C).prod)).sum =
          Layout.local_shape1 g m c * G.prod := by
        intro c _
        rw [List.map_map]
        have hfn : ((Layout.allCoords M).map
            ((fun C => (Layout.local_shape (g :: G) (m :: M) C).prod) ∘ (fun C => c :: C))) =
            (Layout.allCoords M).map
              (fun C => Layout.local_shape1 g m c * (Layout.local_shape G M C).prod) := by
          refine List.map_congr_left ?_
          intro C _
          simp only [Function.comp_apply, Layout.local_shape, List.prod_cons]
        rw [hfn, List.sum_map_mul_left,
          ih M (by simpa using hlen) (fun x hx => hg x (List.mem_cons_of_mem _ hx))
            (fun x hx => hm x (List.mem_cons_of_mem _ hx))]
      rw [List.map_congr_left hinner, List.sum_map_mul_right,
        sum_local_shape1 g m (hg g (List.mem_cons_self _ _)) (hm m (List.mem_cons_self _ _)),
        List.prod_cons]

/-- Witness for C5 at the scenario S5 shapes: global [9,8], extended mesh
[4,1]; the 4 ranks hold 24+24+24+0 = 72 = 9*8 elements. -/
theorem claim_C5_witness :
    ([4, 1] : List Nat).length = ([9, 8] : List Nat).length ∧
    (∀ x ∈ ([9, 8] : List Nat), 1 ≤ x) ∧ (∀ x ∈ ([4, 1] : List Nat), 1 ≤ x) ∧
    ((Layout.allCoords [4, 1]).map
      (fun C => (Layout.local_shape [9, 8] [4, 1] C).prod)).sum = ([9, 8] : List Nat).prod :=
  ⟨by decide, by decide, by decide,
    claim_C5 [9, 8] [4, 1] (by decide) (by decide) (by decide)⟩

/-! Embedding of the coefficient resizing kernels (basis.py), acting along the
transform axis, modelled on one pencil of data as a list of values. -/

namespace Chebyshev

/-- The `Chebyshev._resize_coeffs` kernel (basis.py lines 260-275): pad with
zeros after the data when growing, truncate the tail when shrinking, copy when
the sizes agree. -/
def _resize_coeffs (cdata_in : List ℚ) (size_out : Nat) : List ℚ :=
  if cdata_in.length < size_out then
    cdata_in ++ List.replicate (size_out - cdata_in.length) 0
  else if size_out < cdata_in.length then
    cdata_in.take size_out
  else
    cdata_in

end Chebyshev

namespace Fourier

/-- The `Fourier._resize_complex_coeffs` kernel (basis.py lines 588-606):
with kmax = (min(size_in, size_out) - 1) // 2, copy positions 0..kmax
(posfreq) and the final kmax positions (negfreq), zeroing the middle
(badfreq).  Faithful for kmax ≥ 1; for kmax = 0 the source's negfreq slice
`[-0:]` degenerates to the whole array and numpy raises on the copy, so the
theorems below keep min(size_in, size_out) ≥ 3. -/
def _resize_complex_coeffs (cdata_in : List ℚ) (size_out : Nat) : List ℚ :=
  let size_in := cdata_in.length
  let kmax := (min size_in size_out - 1) / 2
  cdata_in.take (kmax + 1) ++ List.replicate (size_out - (kmax + 1) - kmax) 0 ++
    cdata_in.drop (size_in - kmax)

end Fourier

/-- Composing two complex-Fourier resizes with a common kmax `k` keeps the
first `k+1` and last `k` entries and zeroes the middle. -/
theorem four_double (din : List ℚ) (N S k : Nat) (hlen : din.length = N)
    (hk1 : (min N S - 1) / 2 = k) (hk2 : (min S N - 1) / 2 = k)
    (hSk : 2 * k + 1 ≤ S) (hNk : 2 * k + 1 ≤ N) :
    Fourier._resize_complex_coeffs (Fourier._resize_complex_coeffs din S) N =
      din.take (k + 1) ++ List.replicate (N - (k + 1) - k) 0 ++ din.drop (N - k) := by
  have h1 : Fourier._resize_complex_coeffs din S =
      din.take (k + 1) ++ List.replicate (S - (k + 1) - k) 0 ++ din.drop (N - k) := by
    simp only [Fourier._resize_complex_coeffs]
    rw [hlen, hk1]
  have hlA : (din.take (k + 1) ++ List.replicate (S - (k + 1) - k) 0 ++
      din.drop (N - k)).length = S := by
    simp [hlen]
    omega
  have htake : (din.take (k + 1) ++ List.replicate (S - (k + 1) - k) 0 ++
      din.drop (N - k)).take (k + 1) = din.take (k + 1) := by
    rw [List.append_assoc]
    refine List.take_left' ?_
    simp [hlen]
    omega
  have hdrop : (din.take (k + 1) ++ List.replicate (S - (k + 1) - k) 0 ++
      din.drop (N - k)).drop (S - k) = din.drop (N - k) := by
    refine List.drop_left' ?_
    simp [hlen]
    omega
  rw [h1]
  simp only [Fourier._resize_complex_coeffs]
  rw [hlA, hk2, htake, hdrop]

/-- C6 counterexample: for the complex Fourier resize with N = 5 and S = 3,
shrinking [1,2,3,4,5] to 3 and growing back to 5 yields [1,2,0,0,5]; the
claim's prediction (keep modes 0..S-1, zero modes S..N-1) would be
[1,2,3,0,0]. -/
theorem claim_C6_counterexample :
    Fourier._resize_complex_coeffs
        (Fourier._resize_complex_coeffs [1, 2, 3, 4, 5] 3) 5 = [1, 2, 0, 0, 5] ∧
    Fourier._resize_complex_coeffs
        (Fourier._resize_complex_coeffs [1, 2, 3, 4, 5] 3) 5 ≠ [1, 2, 3, 0, 0] := by
  constructor
  · rfl
  · intro h
    rw [show Fourier._resize_complex_coeffs
        (Fourier._resize_complex_coeffs [1, 2, 3, 4, 5] 3) 5 = [1, 2, 0, 0, 5] from rfl] at h
    simp at h

/-- C6 (amended): for a basis of coefficient size N, resizing up to S ≥ N and
back is the identity for both the Chebyshev and the complex Fourier kernels
(the latter for its realizable odd N); resizing down to S < N and back zeroes
modes S..N-1 for Chebyshev, while the complex Fourier kernel keeps the
(S-1)/2 + 1 leading and (S-1)/2 trailing coefficient slots (modes with
|k| ≤ (S-1)/2) and zeroes the middle. -/
theorem claim_C6_amended (N S T : Nat) (din : List ℚ) (hlen : din.length = N)
    (hS : N ≤ S) (hT3 : 3 ≤ T) (hTN : T < N) (hNodd : N % 2 = 1) :
    Chebyshev._resize_coeffs (Chebyshev._resize_coeffs din S) N = din ∧
    Chebyshev._resize_coeffs (Chebyshev._resize_coeffs din T) N =
      din.take T ++ List.replicate (N - T) 0 ∧
    Fourier._resize_complex_coeffs (Fourier._resize_complex_coeffs din S) N = din ∧
    Fourier._resize_complex_coeffs (Fourier._resize_complex_coeffs din T) N =
      din.take ((T - 1) / 2 + 1) ++ List.replicate (N - 2 * ((T - 1) / 2) - 1) 0 ++
        din.drop (N - (T - 1) / 2) := by
  refine ⟨?_, ?_, ?_, ?_⟩
  · -- Chebyshev, up then down
    by_cases h1 : N < S
    · have hfirst : Chebyshev._resize_coeffs din S =
          din ++ List.replicate (S - N) 0 := by
        simp only [Chebyshev._resize_coeffs]
        rw [hlen, if_pos h1]
      rw [hfirst]
      have hlen2 : (din ++ List.replicate (S - N) 0).length = S := by
        simp [hlen]
        omega
      simp only [Chebyshev._resize_coeffs]
      rw [hlen2, if_neg (by omega), if_pos (by omega)]
      exact List.take_left' hlen
    · have hSN : S = N := by omega
      subst hSN
      have hfirst : Chebyshev._resize_coeffs din S = din := by
        simp only [Chebyshev._resize_coeffs]
        rw [hlen, if_neg (by omega), if_neg (by omega)]
      rw [hfirst, hfirst]
  · -- Chebyshev, down then up
    have hfirst : Chebyshev._resize_coeffs din T = din.take T := by
      simp only [Chebyshev._resize_coeffs]
      rw [hlen, if_neg (by omega), if_pos (by omega)]
    rw [hfirst]
    have hlen2 : (din.take T).length = T := by
      simp [hlen]
      omega
    simp only [Chebyshev._resize_coeffs]
    rw [hlen2, if_pos (by omega)]
  · -- complex Fourier, up then down: identity for odd N
    have hNk : N = 2 * ((N - 1) / 2) + 1 := by omega
    have h := four_double din N S ((N - 1) / 2) hlen
      (by rw [min_eq_left hS]) (by rw [min_eq_right hS]) (by omega) (by omega)
    rw [h]
    have hz : N - ((N - 1) / 2 + 1) - (N - 1) / 2 = 0 := by omega
    rw [hz, List.replicate_zero, List.append_nil]
    have hd : N - (N - 1) / 2 = (N - 1) / 2 + 1 := by omega
    rw [hd, ← hlen, List.take_append_drop]
  · -- complex Fourier, down then up
    have h := four_double din N T ((T - 1) / 2) hlen
      (by rw [min_eq_right (by omega : T ≤ N)]) (by rw [min_eq_left (by omega : T ≤ N)])
      (by omega) (by omega)
    rw [h]
    have hz : N - ((T - 1) / 2 + 1) - (T - 1) / 2 = N - 2 * ((T - 1) / 2) - 1 := by omega
    rw [hz]

/-- Witness for the amended C6 at N = 5, S = 7, T = 3 on data [1,2,3,4,5]. -/
theorem claim_C6_witness :
    (([1, 2, 3, 4, 5] : List ℚ).length = 5 ∧ 5 ≤ 7 ∧ 3 ≤ 3 ∧ 3 < 5 ∧ 5 % 2 = 1) ∧
    (Chebyshev._resize_coeffs (Chebyshev._resize_coeffs [1, 2, 3, 4, 5] 7) 5 =
        [1, 2, 3, 4, 5] ∧
     Chebyshev._resize_coeffs (Chebyshev._resize_coeffs [1, 2, 3, 4, 5] 3) 5 =
        List.take 3 [1, 2, 3, 4, 5] ++ List.replicate (5 - 3) 0 ∧
     Fourier._resize_complex_coeffs
        (Fourier._resize_complex_coeffs [1, 2, 3, 4, 5] 7) 5 = [1, 2, 3, 4, 5] ∧
     Fourier._resize_complex_coeffs
        (Fourier._resize_complex_coeffs [1, 2, 3, 4, 5] 3) 5 =
        List.take ((3 - 1) / 2 + 1) [1, 2, 3, 4, 5] ++
          List.replicate (5 - 2 * ((3 - 1) / 2) - 1) 0 ++
          List.drop (5 - (3 - 1) / 2) [1, 2, 3, 4, 5]) :=
  ⟨⟨rfl, by omega, by omega, by omega, by omega⟩,
    claim_C6_amended 5 7 3 [1, 2, 3, 4, 5] rfl (by omega) (by omega) (by omega) (by omega)⟩

/-! Embeddings of the failing code paths of basis.py and field.py, with the
Python exceptions they raise. -/

/-- Python-level errors raised by the embedded code paths. -/
inductive PyError where
  | nameError (name : String)
  | typeError (msg : String)
  | valueError (msg : String)
deriving DecidableEq, Repr

namespace DifferentiateChebyshev

/-- The `DifferentiateChebyshev.explicit_form` method (basis.py 442-459).
Its body reads the names `cdata` and `cderiv`, but its parameters are named
`input` and `output` and no `cdata` or `cderiv` is in scope, so every call
raises NameError before touching the data: with axis = -1 the guard is
skipped and the assignment `a = cdata` raises; for any other axis the guard
itself evaluates `len(cdata.shape)` and raises. -/
def explicit_form (_input : List ℚ) (_axis : Int) : Except PyError (List ℚ) :=
  Except.error (PyError.nameError "cdata")

/-- The `DifferentiateChebyshev.matrix_form` differentiation matrix
(basis.py 427-440): entry (i, j) is j/stretch for i = 0 and 2j/stretch for
i > 0, on the superdiagonals j > i with j - i odd, zero elsewhere. -/
def matrix_form (size : Nat) (stretch : ℚ) (i j : Nat) : ℚ :=
  if i < j ∧ j < size ∧ (j - i) % 2 = 1 then
    (if i = 0 then (j : ℚ) / stretch else 2 * j / stretch)
  else 0

/-- Application of an operator matrix to a coefficient vector. -/
def matVec (m : Nat → Nat → ℚ) (size : Nat) (v : List ℚ) : List ℚ :=
  (List.range size).map (fun i => ((List.range size).map (fun j => m i j * v.getD j 0)).sum)

end DifferentiateChebyshev

/-- C7: the coefficient-recursion differentiation crashes: `explicit_form`
raises NameError("cdata") at the claim's input (N = 8, interval [-1,1] so the
grid stretch is 1, coefficients of T1, axis -1), while the source's own
matrix form maps those coefficients to the claimed derivative
[1,0,0,0,0,0,0,0]. -/
theorem claim_C7 :
    DifferentiateChebyshev.explicit_form [0, 1, 0, 0, 0, 0, 0, 0] (-1) =
      Except.error (PyError.nameError "cdata") ∧
    DifferentiateChebyshev.matVec (DifferentiateChebyshev.matrix_form 8 1) 8
      [0, 1, 0, 0, 0, 0, 0, 0] = [1, 0, 0, 0, 0, 0, 0, 0] := by
  refine ⟨rfl, ?_⟩
  simp only [DifferentiateChebyshev.matVec, DifferentiateChebyshev.matrix_form]
  norm_num [List.range_succ]

/-- Interval and coefficient-size data of one subbasis of a compound basis. -/
structure SubBasisInfo where
  lo : ℚ
  hi : ℚ
  coeff_size : Nat
deriving DecidableEq, Repr

namespace Compound

/-- The `Compound.coeff_start` method (basis.py 1061-1062): offset of a
subbasis block in the compound coefficient vector. -/
def coeff_start (subbases : List SubBasisInfo) (index : Nat) : Nat :=
  ((subbases.take index).map (fun b => b.coeff_size)).sum

/-- The `Compound.interp_vector` method (basis.py 1170-1182).  The loop takes
the first subbasis whose closed interval contains the position; the body then
evaluates `self.coeff_start[i]`, subscripting the bound method `coeff_start`,
which raises TypeError; when no interval contains the position the loop falls
through to `raise ValueError`. -/
def interp_vector (subbases : List SubBasisInfo) (position : ℚ) :
    Except PyError (List ℚ) :=
  match subbases.find? (fun b => decide (b.lo ≤ position) && decide (position ≤ b.hi)) with
  | some _ => Except.error (PyError.typeError "method object is not subscriptable")
  | none => Except.error (PyError.valueError "Position outside any subbasis interval.")

end Compound

/-- C8: compound interpolation never returns a vector: on a compound of two
size-4 Chebyshev subbases on [0,1] and [1,2], the in-domain position 1/2
raises TypeError (the code subscripts the method `coeff_start` as a
container), while the out-of-domain position 3 raises the claimed
ValueError. -/
theorem claim_C8 :
    Compound.interp_vector [⟨0, 1, 4⟩, ⟨1, 2, 4⟩] (1 / 2) =
      Except.error (PyError.typeError "method object is not subscriptable") ∧
    Compound.interp_vector [⟨0, 1, 4⟩, ⟨1, 2, 4⟩] 3 =
      Except.error (PyError.valueError "Position outside any subbasis interval.") := by
  constructor
  · norm_num [Compound.interp_vector, List.find?]
  · norm_num [Compound.interp_vector, List.find?]

/-- Field state visible to `__setitem__`: the current layout index and the
contents of the typed data view `self.data`. -/
structure FieldView where
  layoutIndex : Nat
  view : List ℚ
deriving DecidableEq, Repr

namespace Field

/-- The `Field.__setitem__` method (field.py 88-94).  `self.layout = layout`
reassigns the layout and recomputes the typed view from the backing buffer
(the layout setter calls `layout.view_data(self._buffer)`; `view_data` is not
defined in the sources, so it is modelled from the spec as an arbitrary
zero-copy reinterpretation function of the buffer).  Then
`np.copyto(data, self.data)` — numpy's copyto(dst, src) — copies the field's
view into the caller's array.  Returns the field and the caller's array after
the call. -/
def setitem (buffer : List ℚ) (view_data : Nat → List ℚ → List ℚ)
    (target : Nat) (_data : List ℚ) : FieldView × List ℚ :=
  let f : FieldView := { layoutIndex := target, view := view_data target buffer }
  (f, f.view)

end Field

/-- C9: `field[name] = data` sets the layout, but copies in the wrong
direction.  At the failing input (zeroed two-element buffer, identity
reinterpretation, caller array [1,2]) the layout is set, yet the field's view
stays [0,0] instead of becoming [1,2], and the caller's array is overwritten
with the field's [0,0]. -/
theorem claim_C9 :
    (Field.setitem [0, 0] (fun _ b => b) 4 [1, 2]).1.layoutIndex = 4 ∧
    (Field.setitem [0, 0] (fun _ b => b) 4 [1, 2]).1.view = [0, 0] ∧
    (Field.setitem [0, 0] (fun _ b => b) 4 [1, 2]).2 = [0, 0] ∧
    (Field.setitem [0, 0] (fun _ b => b) 4 [1, 2]).1.view ≠ [1, 2] := by
  refine ⟨rfl, rfl, rfl, ?_⟩
  simp [Field.setitem]

/-- Values of the transform-library configuration. -/
inductive Library where
  | scipy
  | fftw
deriving DecidableEq, Repr

/-- The bound state produced by the `Basis.library` setter: which
implementations `forward` and `backward` were bound to
(`_forward_<value>` / `_backward_<value>`) and the recorded `_library`. -/
structure TransformBinding where
  forward : Library
  backward : Library
  _library : Library
deriving DecidableEq, Repr

/-- The `Basis.library` setter (basis.py 99-107): binds `forward` and
`backward` to the implementations named by the value and records the value. -/
def setLibrary (value : Library) : TransformBinding :=
  { forward := value, backward := value, _library := value }

/-- Library binding made by `Chebyshev.__init__` (basis.py 232):
`self.library = DEFAULT_LIBRARY`. -/
def Chebyshev.initBinding (DEFAULT_LIBRARY : Library) : TransformBinding :=
  setLibrary DEFAULT_LIBRARY

/-- Library binding made by `Fourier.__init__` (basis.py 538):
`self.library = DEFAULT_LIBRARY`. -/
def Fourier.initBinding (DEFAULT_LIBRARY : Library) : TransformBinding :=
  setLibrary DEFAULT_LIBRARY

/-- Library binding made by `SinCos.__init__` (basis.py 810-816): the
`self.library = DEFAULT_LIBRARY` line is commented out and
`self.library = 'scipy'` is executed instead. -/
def SinCos.initBinding (_DEFAULT_LIBRARY : Library) : TransformBinding :=
  setLibrary Library.scipy

/-- C10: constructing a SinCos basis always binds the scipy forward and
backward transforms, whatever DEFAULT_LIBRARY is configured, while Chebyshev
and Fourier honor DEFAULT_LIBRARY. -/
theorem claim_C10 (dl : Library) :
    (SinCos.initBinding dl).forward = Library.scipy ∧
    (SinCos.initBinding dl).backward = Library.scipy ∧
    (SinCos.initBinding dl)._library = Library.scipy ∧
    (Chebyshev.initBinding dl).forward = dl ∧
    (Chebyshev.initBinding dl)._library = dl ∧
    (Fourier.initBinding dl).forward = dl ∧
    (Fourier.initBinding dl)._library = dl :=
  ⟨rfl, rfl, rfl, rfl, rfl, rfl, rfl⟩

end Dedalus
